import Mathlib

/-!
Shallow embedding of the transaction-flow analysis engine of
`src/core/blockchain_tracker.py` (class `BlockchainTracker`), together with
proofs about it.

Modelling conventions:
* Python `datetime` values are represented by exact rationals (unix seconds);
  Python `float` amounts/probabilities by exact rationals.
* `networkx.DiGraph` is represented by insertion-ordered association lists of
  nodes and edges.  A node's attribute dict is `Option NodeData`
  (`none` = empty attribute dict, as produced when `add_edge` auto-creates an
  endpoint); an edge's attribute dict is `Option EdgeData` likewise.
  `DiGraph` stores at most one edge per ordered pair: `add_edge` on an
  existing pair updates that edge's attributes in place, exactly as networkx's
  simple directed graph does.
* HTTP traffic is represented by an `HttpResult` value handed to the adapter:
  `failure` models a raised network-level exception, `response` carries the
  status code and the decoded JSON body (`Except` for a body that fails to
  decode or lacks the top-level keys the code indexes unconditionally).
* A raised Python exception that escapes a function is an `Except.error`
  carrying the message; functions that catch all exceptions and return a
  value are total functions returning that value.
-/

namespace HackNode

/-- The `Transaction` dataclass of `blockchain_tracker.py`. -/
structure Transaction where
  tx_hash : String
  from_address : String
  to_address : String
  timestamp : ℚ
  amount : ℚ
  currency : String
  block_number : ℤ
  gas_price : Option ℚ
  gas_used : Option ℚ
deriving Repr, DecidableEq

/-- Node attributes set by `build_transaction_tree` via `G.add_node`. -/
structure NodeData where
  currency : String
  first_seen : ℚ
  last_seen : ℚ
deriving Repr, DecidableEq

/-- Edge attributes set by `build_transaction_tree` via `G.add_edge`. -/
structure EdgeData where
  tx_hash : String
  amount : ℚ
  timestamp : ℚ
  currency : String
deriving Repr, DecidableEq

/-- A `networkx.DiGraph` as used by the tracker: insertion-ordered node and
edge association lists.  The second component of a node entry is its
attribute dict (`none` = empty dict); an edge entry `(u, v, d)` is the single
directed edge `u → v` with attribute dict `d`. -/
structure DiGraph where
  nodes : List (String × Option NodeData)
  edges : List (String × String × Option EdgeData)
deriving Repr, DecidableEq

/-- The keys of the node dict. -/
def node_keys (g : DiGraph) : List String := g.nodes.map (·.1)

/-- The ordered pairs that currently carry an edge. -/
def edge_keys (g : DiGraph) : List (String × String) :=
  g.edges.map (fun e => (e.1, e.2.1))

/-- `n in G` for nodes. -/
def hasNode (g : DiGraph) (n : String) : Bool := g.nodes.any (·.1 == n)

/-- `G.nodes[n]`: the attribute dict of node `n`, if the node exists. -/
def getNodeAttrs (g : DiGraph) (n : String) : Option (Option NodeData) :=
  (g.nodes.find? (·.1 == n)).map (·.2)

/-- The outgoing edges of `n`, in insertion order. -/
def outEdges (g : DiGraph) (n : String) : List (String × String × Option EdgeData) :=
  g.edges.filter (fun e => e.1 == n)

/-- `G.add_node(n, **d)`: create the node or overwrite its attributes
(`build_transaction_tree` always supplies all three keys, so the dict update
amounts to replacing the attribute record). -/
def add_node (g : DiGraph) (n : String) (d : NodeData) : DiGraph :=
  if g.nodes.any (·.1 == n) then
    ⟨g.nodes.map (fun p => if p.1 == n then (n, some d) else p), g.edges⟩
  else
    ⟨g.nodes ++ [(n, some d)], g.edges⟩

/-- Append the node with an empty attribute dict unless it already exists
(what networkx's `add_edge` does to missing endpoints). -/
def ensureNode (nodes : List (String × Option NodeData)) (n : String) :
    List (String × Option NodeData) :=
  if nodes.any (·.1 == n) then nodes else nodes ++ [(n, none)]

/-- `G.add_edge(u, v, **d)`: auto-create missing endpoints, then create the
edge or overwrite the attributes of the existing `u → v` edge in place. -/
def add_edge (g : DiGraph) (u v : String) (d : EdgeData) : DiGraph :=
  let ns := ensureNode (ensureNode g.nodes u) v
  if g.edges.any (fun e => e.1 == u && e.2.1 == v) then
    ⟨ns, g.edges.map (fun e => if e.1 == u && e.2.1 == v then (u, v, some d) else e)⟩
  else
    ⟨ns, g.edges ++ [(u, v, some d)]⟩

/-- `list(G.successors(n))`: targets of the outgoing edges of `n`, in
insertion order; raises `NetworkXError` when `n` is not a node. -/
def successors (g : DiGraph) (n : String) : Except String (List String) :=
  if g.nodes.any (·.1 == n) then
    .ok ((outEdges g n).map (fun e => e.2.1))
  else
    .error ("The node " ++ n ++ " is not in the digraph.")

/-- `G.get_edge_data(u, v)`: `none` when there is no `u → v` edge, otherwise
`some` of that edge's attribute dict. -/
def get_edge_data (g : DiGraph) (u v : String) : Option (Option EdgeData) :=
  (g.edges.find? (fun e => e.1 == u && e.2.1 == v)).map (·.2.2)

/-- Python's `str.lower()`, character by character on the underlying list
(`Char.toLower` lowers the basic latin range, which covers the address
alphabets involved). -/
def lower (s : String) : String := ⟨s.data.map Char.toLower⟩

/-- Python's `str.startswith(pre)`. -/
def startswith (s pre : String) : Bool := pre.data.isPrefixOf s.data

/-- `BlockchainTracker.detect_currency`: the source initialises the result
to `UNKNOWN` and runs an `if`/`elif` chain over `address.lower()`, first
match winning (the `TRX` arm additionally gates on the raw address length). -/
def detect_currency (address : String) : String :=
  let address_lower := lower address
  if startswith address_lower "0x" then "ETH"
  else if startswith address_lower "bc1" || startswith address_lower "1"
      || startswith address_lower "3" then "BTC"
  else if startswith address_lower "t" && address.length == 34 then "TRX"
  else if startswith address_lower "addr" then "ADA"
  else if startswith address_lower "cosmos" then "ATOM"
  else if startswith address_lower "r" then "XRP"
  else if startswith address_lower "g" then "XLM"
  else "UNKNOWN"

/-- The loop body of `build_transaction_tree`: upsert the two endpoint
nodes, then the edge, of one transaction. -/
def processTx (G : DiGraph) (tx : Transaction) : DiGraph :=
  let G1 := add_node G tx.from_address
    ⟨tx.currency, tx.timestamp, tx.timestamp⟩
  let G2 := add_node G1 tx.to_address
    ⟨tx.currency, tx.timestamp, tx.timestamp⟩
  add_edge G2 tx.from_address tx.to_address
    ⟨tx.tx_hash, tx.amount, tx.timestamp, tx.currency⟩

/-- `BlockchainTracker.build_transaction_tree`: fold the transaction list in
order; each transaction upserts its two endpoint nodes and its edge.  (The
per-transaction `try` body only reads dataclass fields, so the `except` arm
is dead and is not modelled.) -/
def build_transaction_tree (transactions : List Transaction) : DiGraph :=
  transactions.foldl processTx ⟨[], []⟩

/-- The two mutable locals of `find_end_receivers` that the inner `dfs`
updates: the `end_receivers` accumulator and the `visited` set. -/
structure DfsState where
  end_receivers : List (String × ℚ)
  visited : List String
deriving Repr, DecidableEq

/-- The inner recursive `dfs` of `find_end_receivers`.

The source carries `depth` upward and stops on `depth > max_depth`; here we
carry the equivalent remaining budget `gas = max_depth + 1 - depth`, so the
source guard `depth > max_depth` is exactly `gas = 0` and each hop passes
`gas - 1`.  The loop over `successors` is the `foldl`; an `Except.error`
models the `NetworkXError` raised by `graph.successors` on a missing node,
which aborts the whole traversal (the source has no `try` around it). -/
def dfs (g : DiGraph) : ℕ → String → ℚ → DfsState → Except String DfsState
  | 0, _, _, s => .ok s
  | gas + 1, node, path_probability, s =>
    if node ∈ s.visited then .ok s
    else
      match successors g node with
      | .error e => .error e
      | .ok succs =>
        let s1 : DfsState := ⟨s.end_receivers, node :: s.visited⟩
        if succs = [] then
          .ok ⟨s1.end_receivers ++ [(node, path_probability)], s1.visited⟩
        else
          succs.foldl
            (fun acc successor =>
              match acc with
              | .error e => .error e
              | .ok st =>
                match get_edge_data g node successor with
                | some (some _) => dfs g gas successor (path_probability * (4 / 5)) st
                | _ => .ok st)
            (.ok s1)

/-- `BlockchainTracker.find_end_receivers` (the source default is
`max_depth = 5`; callers here pass it explicitly).  The final `list.sort`
with `reverse=True` is a stable descending sort by probability, which is
exactly `List.insertionSort` with the reflexive `≥` order on the score. -/
def find_end_receivers (graph : DiGraph) (start_address : String)
    (max_depth : ℕ) : Except String (List (String × ℚ)) :=
  match dfs graph (max_depth + 1) start_address 1 ⟨[], []⟩ with
  | .error e => .error e
  | .ok s =>
    .ok ((List.insertionSort (fun a b => b.2 ≤ a.2) s.end_receivers).take 10)

instance {ε α : Type} [DecidableEq ε] [DecidableEq α] : DecidableEq (Except ε α) :=
  fun a b =>
    match a, b with
    | .error x, .error y => decidable_of_iff (x = y) (by simp)
    | .ok x, .ok y => decidable_of_iff (x = y) (by simp)
    | .error _, .ok _ => isFalse (by simp)
    | .ok _, .error _ => isFalse (by simp)

/-- The outcome of one HTTP `GET` as the adapter code observes it:
`failure` is a raised network-level exception, `response` carries the status
code and the decoded JSON body (`Except.error` = the body fails to decode as
JSON or lacks a top-level key the code indexes unconditionally). -/
inductive HttpResult (β : Type) where
  | failure (msg : String)
  | response (status_code : ℕ) (body : Except String β)
deriving Repr, DecidableEq

/-- One row of Etherscan's `result` array, with each field that the code
converts via `float`/`int` represented by its conversion outcome (`none` =
the conversion raises, so the row is skipped).  `value` is in wei,
`gasPrice` in wei; `gasPrice`/`gasUsed` are `none` also when the raw field
is falsy (the code's `if tx['gasPrice']`/`if tx['gasUsed']` guards). -/
structure EthRawTx where
  hash : String
  from_address : String
  to_address : String
  timeStamp : Option ℚ
  value : Option ℚ
  blockNumber : Option ℤ
  gasPrice : Option ℚ
  gasUsed : Option ℚ
deriving Repr, DecidableEq

/-- The decoded top level of an Etherscan reply. -/
structure EtherscanResponse where
  status : String
  message : String
  result : List EthRawTx
deriving Repr, DecidableEq

/-- The per-row `try` body of `get_ethereum_transactions`: build a
`Transaction`, converting wei to ETH (`/ 10^18`) and the gas price to gwei
(`/ 10^9`); any failing field conversion aborts the row. -/
def parseEthRow (tx : EthRawTx) : Option Transaction :=
  match tx.value, tx.timeStamp, tx.blockNumber with
  | some v, some ts, some bn =>
      some ⟨tx.hash, tx.from_address, tx.to_address, ts, v / 10 ^ 18, "ETH", bn,
        tx.gasPrice.map (· / 10 ^ 9), tx.gasUsed⟩
  | _, _, _ => none

/-- `BlockchainTracker.get_ethereum_transactions`.  Every exception raised
after the API-key check (network failure, `raise_for_status`, an
undecodable body, a missing top-level key) is caught by the enclosing
`except`, which logs and returns the empty list.  `requests`'
`raise_for_status` raises exactly for client/server error statuses
400–599; any other status — including 600–999, which `http.client` can
deliver — does not raise, and the code falls through to decoding and
parsing the body.  Rows of `result[:max_transactions]` that fail to parse
are skipped. -/
def get_ethereum_transactions (etherscan_api_key : String)
    (response : HttpResult EtherscanResponse) (max_transactions : ℕ) :
    List Transaction :=
  if etherscan_api_key = "" then []
  else
    match response with
    | .failure _ => []
    | .response status_code body =>
      if 400 ≤ status_code ∧ status_code < 600 then []
      else
        match body with
        | .error _ => []
        | .ok data =>
          if data.status ≠ "1" then []
          else (data.result.take max_transactions).filterMap parseEthRow

/-- The decoded first Blockstream reply: the code only reads
`chain_stats.tx_count`, defaulting to `0` via `.get`. -/
structure BtcAddressData where
  tx_count : ℕ
deriving Repr, DecidableEq

/-- One row of the Blockstream transaction list; the code reads `txid`,
`status.block_time` and `status.block_height` with falsy defaults. -/
structure BtcRawTx where
  txid : String
  block_time : ℚ
  block_height : ℤ
deriving Repr, DecidableEq

/-- `BlockchainTracker.get_bitcoin_transactions`.  The first `GET` goes
through `raise_for_status` (it raises exactly for statuses 400–599, caught
by the enclosing `except`, returning `[]`; statuses outside that range,
including 600–999, do not raise and proceed); a zero `tx_count`
short-circuits to `[]`; the second `GET` is checked against `!= 200`
explicitly.  Each kept row becomes a placeholder `Transaction` with the
queried address as source, an empty destination and amount `0.001`. -/
def get_bitcoin_transactions (address : String)
    (addr_response : HttpResult BtcAddressData)
    (txs_response : HttpResult (List BtcRawTx)) (max_transactions : ℕ) :
    List Transaction :=
  match addr_response with
  | .failure _ => []
  | .response status_code body =>
    if 400 ≤ status_code ∧ status_code < 600 then []
    else
      match body with
      | .error _ => []
      | .ok address_data =>
        if address_data.tx_count = 0 then []
        else
          match txs_response with
          | .failure _ => []
          | .response tx_status tx_body =>
            if tx_status ≠ 200 then []
            else
              match tx_body with
              | .error _ => []
              | .ok tx_list =>
                (tx_list.take max_transactions).filterMap
                  (fun tx =>
                    if tx.block_time ≠ 0 ∧ tx.txid ≠ "" then
                      some ⟨tx.txid, address, "", tx.block_time, 1 / 1000,
                        "BTC", tx.block_height, none, none⟩
                    else none)

/-- One row of TronGrid's `data` array.  `txID` and `block_timestamp` are
indexed without defaults (`none` = `KeyError`, skipping the row); `value` is
`none` when `float` raises on it; the other fields use falsy `.get`
defaults, already applied.  `block_timestamp` is in milliseconds. -/
structure TronRawTx where
  txID : Option String
  tx_type : String
  value : Option ℚ
  block_timestamp : Option ℚ
  from_address : String
  to_address : String
  block : ℤ
deriving Repr, DecidableEq

/-- The decoded top level of a TronGrid reply (`data`, defaulting to `[]`). -/
structure TronResponse where
  data : List TronRawTx
deriving Repr, DecidableEq

/-- `BlockchainTracker.get_tron_transactions`: keep `Transfer`-typed rows,
convert sun to TRX (`/ 10^6`) and milliseconds to seconds (`/ 1000`); a row
whose conversion raises is skipped.  `raise_for_status` raises exactly for
statuses 400–599.  (`max_transactions` only parametrises the request; the
reply is consumed in full.) -/
def get_tron_transactions (response : HttpResult TronResponse) :
    List Transaction :=
  match response with
  | .failure _ => []
  | .response status_code body =>
    if 400 ≤ status_code ∧ status_code < 600 then []
    else
      match body with
      | .error _ => []
      | .ok data =>
        data.data.filterMap
          (fun tx =>
            if tx.tx_type = "Transfer" then
              match tx.value, tx.txID, tx.block_timestamp with
              | some v, some id, some bt =>
                  some ⟨id, tx.from_address, tx.to_address, bt / 1000,
                    v / 10 ^ 6, "TRX", tx.block, none, none⟩
              | _, _, _ => none
            else none)

/-- The success payload of `analyze_transaction_flow` (its returned dict). -/
structure AnalysisResult where
  address : String
  currency : String
  total_transactions : ℕ
  incoming_transactions : ℕ
  outgoing_transactions : ℕ
  total_volume : ℚ
  end_receivers : List (String × ℚ)
  transaction_tree : DiGraph
  transactions : List Transaction
deriving Repr, DecidableEq

/-- What `analyze_transaction_flow` hands back: either one of its
`{"error": ...}` dicts or the full result dict. -/
inductive AnalyzeOutput where
  | error (msg : String)
  | ok (result : AnalysisResult)
deriving Repr, DecidableEq

/-- A record of one adapter call made during `analyze_transaction_flow`,
used to state which network fetches an invocation performs. -/
inductive FetchCall where
  | eth (address : String)
  | btc (address : String)
  | trx (address : String)
deriving Repr, DecidableEq

/-- The `if not currency: currency = self.detect_currency(address)` step: a
falsy `currency` argument (absent, or the empty string) triggers
`detect_currency`. -/
def resolve_currency (address : String) (currency : Option String) : String :=
  match currency with
  | none => detect_currency address
  | some c => if c = "" then detect_currency address else c

/-- The tail of `analyze_transaction_flow` after the adapter was selected and
run: the no-transactions error, graph construction, end-receiver search and
the aggregate statistics.  `call` records which adapter call produced
`transactions`. -/
def analyze_fetched (address cur : String) (transactions : List Transaction)
    (call : FetchCall) : Except String AnalyzeOutput × List FetchCall :=
  if transactions = [] then (.ok (.error "No transactions found"), [call])
  else
    let graph := build_transaction_tree transactions
    match find_end_receivers graph address 5 with
    | .error e => (.error e, [call])
    | .ok end_receivers =>
      let total_incoming :=
        (transactions.filter (fun tx => tx.to_address == address)).length
      let total_outgoing :=
        (transactions.filter (fun tx => tx.from_address == address)).length
      let total_volume := (transactions.map (·.amount)).sum
      (.ok (.ok ⟨address, cur, transactions.length, total_incoming,
        total_outgoing, total_volume, end_receivers, graph, transactions⟩),
        [call])

/-- `BlockchainTracker.analyze_transaction_flow`, parametrised by the three
adapters as address-indexed oracles (their HTTP traffic is outside this
function).  The second component lists the adapter calls performed, in
order.  The outer `Except` is an uncaught Python exception — the
`NetworkXError` that `find_end_receivers` raises when the queried address is
not a node of the built graph.  `find_end_receivers` is called with the
source default `max_depth = 5`. -/
def analyze_transaction_flow
    (fetch_eth fetch_btc fetch_trx : String → List Transaction)
    (address : String) (currency : Option String) :
    Except String AnalyzeOutput × List FetchCall :=
  let cur : String := resolve_currency address currency
  if cur = "ETH" then
    analyze_fetched address cur (fetch_eth address) (.eth address)
  else if cur = "BTC" then
    analyze_fetched address cur (fetch_btc address) (.btc address)
  else if cur = "TRX" then
    analyze_fetched address cur (fetch_trx address) (.trx address)
  else (.ok (.error ("Unsupported currency: " ++ cur)), [])

/-! ### Graph predicates used by the theorems -/

/-- There is a directed edge `u → v` in `g`. -/
def hasEdge (g : DiGraph) (u v : String) : Prop := (u, v) ∈ edge_keys g

/-- `w` is reachable from `u` in exactly `k` edge hops. -/
inductive ReachableIn (g : DiGraph) : String → String → ℕ → Prop where
  | refl (n : String) : ReachableIn g n n 0
  | step {u v w : String} {k : ℕ} (huv : hasEdge g u v)
      (hvw : ReachableIn g v w k) : ReachableIn g u w (k + 1)

/-- Both endpoints of every edge are nodes — the invariant networkx maintains
for every graph it hands out. -/
def WfGraph (g : DiGraph) : Prop :=
  ∀ e ∈ g.edges, e.1 ∈ node_keys g ∧ e.2.1 ∈ node_keys g

/-- An end receiver in the sense of the traversal: a node of the graph with
no outgoing edges. -/
def IsSink (g : DiGraph) (n : String) : Prop :=
  n ∈ node_keys g ∧ outEdges g n = []

theorem nodes_any_iff (g : DiGraph) (n : String) :
    (g.nodes.any (·.1 == n)) = true ↔ n ∈ node_keys g := by
  simp [node_keys, List.any_eq_true, List.mem_map]

theorem edges_any_iff (g : DiGraph) (u v : String) :
    (g.edges.any (fun e => e.1 == u && e.2.1 == v)) = true ↔
      (u, v) ∈ edge_keys g := by
  simp [edge_keys, List.any_eq_true, List.mem_map, Prod.ext_iff]

theorem successors_of_mem {g : DiGraph} {n : String} (h : n ∈ node_keys g) :
    successors g n = .ok ((outEdges g n).map (fun e => e.2.1)) := by
  rw [successors, if_pos ((nodes_any_iff g n).2 h)]

theorem successors_of_not_mem {g : DiGraph} {n : String}
    (h : n ∉ node_keys g) :
    successors g n = .error ("The node " ++ n ++ " is not in the digraph.") := by
  rw [successors, if_neg]
  intro hc
  exact h ((nodes_any_iff g n).1 hc)

theorem hasEdge_of_mem_successors {g : DiGraph} {n : String} {succs : List String}
    (h : successors g n = .ok succs) : ∀ a ∈ succs, hasEdge g n a := by
  intro a ha
  rw [successors] at h
  split at h
  · rename_i hin
    cases h
    simp only [outEdges, List.mem_map, List.mem_filter] at ha
    obtain ⟨e, ⟨he, hkey⟩, hta⟩ := ha
    refine (edges_any_iff g n a).1 ?_
    simp only [List.any_eq_true]
    exact ⟨e, he, by simp [hkey, hta]⟩
  · cases h

theorem mem_nodes_of_mem_successors {g : DiGraph} (hwf : WfGraph g)
    {n : String} {succs : List String}
    (h : successors g n = .ok succs) : ∀ a ∈ succs, a ∈ node_keys g := by
  intro a ha
  rw [successors] at h
  split at h
  · cases h
    simp only [outEdges, List.mem_map, List.mem_filter] at ha
    obtain ⟨e, ⟨he, _⟩, hta⟩ := ha
    exact hta ▸ (hwf e he).2
  · cases h

theorem sink_of_successors_nil {g : DiGraph} {n : String}
    (h : successors g n = .ok []) : IsSink g n := by
  rw [successors] at h
  split at h
  · rename_i hin
    have hmap : (outEdges g n).map (fun e => e.2.1) = [] := by
      injection h
    exact ⟨(nodes_any_iff g n).1 hin, List.map_eq_nil_iff.1 hmap⟩
  · exact Except.noConfusion h

/-! ### The traversal invariant -/

/-- The loop body of the `for successor in successors:` loop inside `dfs`,
named so that theorems can speak about prefixes of the loop's run. -/
def dfsStep (g : DiGraph) (gas : ℕ) (node : String) (path_probability : ℚ)
    (acc : Except String DfsState) (successor : String) :
    Except String DfsState :=
  match acc with
  | .error e => .error e
  | .ok st =>
    match get_edge_data g node successor with
    | some (some _) => dfs g gas successor (path_probability * (4 / 5)) st
    | _ => .ok st

theorem dfs_zero (g : DiGraph) (node : String) (p : ℚ) (s : DfsState) :
    dfs g 0 node p s = .ok s := rfl

theorem dfs_succ (g : DiGraph) (gas : ℕ) (node : String) (p : ℚ)
    (s : DfsState) :
    dfs g (gas + 1) node p s =
      if node ∈ s.visited then .ok s
      else
        match successors g node with
        | .error e => .error e
        | .ok succs =>
          if succs = [] then
            .ok ⟨s.end_receivers ++ [(node, p)], node :: s.visited⟩
          else
            succs.foldl (dfsStep g gas node p)
              (.ok ⟨s.end_receivers, node :: s.visited⟩) := rfl

theorem dfs_succ_visited {g : DiGraph} {gas : ℕ} {node : String} {p : ℚ}
    {s : DfsState} (hv : node ∈ s.visited) :
    dfs g (gas + 1) node p s = .ok s := by
  rw [dfs_succ, if_pos hv]

theorem dfs_succ_error {g : DiGraph} {gas : ℕ} {node : String} {p : ℚ}
    {s : DfsState} {e : String} (hv : node ∉ s.visited)
    (he : successors g node = .error e) :
    dfs g (gas + 1) node p s = .error e := by
  rw [dfs_succ, if_neg hv, he]

theorem dfs_succ_ok {g : DiGraph} {gas : ℕ} {node : String} {p : ℚ}
    {s : DfsState} {succs : List String} (hv : node ∉ s.visited)
    (hsucc : successors g node = .ok succs) :
    dfs g (gas + 1) node p s =
      if succs = [] then
        .ok ⟨s.end_receivers ++ [(node, p)], node :: s.visited⟩
      else
        succs.foldl (dfsStep g gas node p)
          (.ok ⟨s.end_receivers, node :: s.visited⟩) := by
  rw [dfs_succ, if_neg hv, hsucc]

theorem foldl_dfsStep_error (g : DiGraph) (gas : ℕ) (node : String) (p : ℚ)
    (e : String) (l : List String) :
    l.foldl (dfsStep g gas node p) (.error e) = .error e := by
  induction l with
  | nil => rfl
  | cons a l ihl => simpa [dfsStep] using ihl

theorem foldl_dfsStep_ok_extend (g : DiGraph) (gas : ℕ) (node : String)
    (p : ℚ)
    (ih : ∀ node' p' s s', dfs g gas node' p' s = .ok s' →
      ∃ new, s'.end_receivers = s.end_receivers ++ new ∧
        ∀ x ∈ new, IsSink g x.1 ∧
          ∃ k, k < gas ∧ x.2 = p' * (4 / 5) ^ k ∧ ReachableIn g node' x.1 k) :
    ∀ (succs : List String) (s0 s' : DfsState),
      (∀ a ∈ succs, hasEdge g node a) →
      succs.foldl (dfsStep g gas node p) (.ok s0) = .ok s' →
      ∃ new, s'.end_receivers = s0.end_receivers ++ new ∧
        ∀ x ∈ new, IsSink g x.1 ∧
          ∃ k, k < gas ∧ x.2 = p * (4 / 5) * (4 / 5) ^ k ∧
            ∃ a, hasEdge g node a ∧ ReachableIn g a x.1 k := by
  intro succs
  induction succs with
  | nil =>
    intro s0 s' _ h
    cases h
    exact ⟨[], by simp, by simp⟩
  | cons succ rest ihl =>
    intro s0 s' hsub h
    rw [List.foldl_cons] at h
    have hstep : dfsStep g gas node p (.ok s0) succ =
        match get_edge_data g node succ with
        | some (some _) => dfs g gas succ (p * (4 / 5)) s0
        | _ => .ok s0 := rfl
    rcases hd : get_edge_data g node succ with _ | d
    · rw [hstep, hd] at h
      obtain ⟨new, hnew, hspec⟩ := ihl s0 s' (fun a ha => hsub a (by simp [ha])) h
      exact ⟨new, hnew, fun x hx =>
        let ⟨hs, k, hk, hp, a, hae, har⟩ := hspec x hx
        ⟨hs, k, hk, hp, a, hae, har⟩⟩
    · rcases d with _ | d
      · rw [hstep, hd] at h
        obtain ⟨new, hnew, hspec⟩ := ihl s0 s' (fun a ha => hsub a (by simp [ha])) h
        exact ⟨new, hnew, hspec⟩
      · rw [hstep, hd] at h
        rcases hdfs : dfs g gas succ (p * (4 / 5)) s0 with e | s1
        · rw [hdfs] at h
          rw [foldl_dfsStep_error] at h
          cases h
        · rw [hdfs] at h
          obtain ⟨new1, hnew1, hspec1⟩ := ih succ (p * (4 / 5)) s0 s1 hdfs
          obtain ⟨new2, hnew2, hspec2⟩ :=
            ihl s1 s' (fun a ha => hsub a (by simp [ha])) h
          refine ⟨new1 ++ new2, by rw [hnew2, hnew1, List.append_assoc], ?_⟩
          intro x hx
          rcases List.mem_append.1 hx with hx1 | hx2
          · obtain ⟨hs, k, hk, hp, har⟩ := hspec1 x hx1
            exact ⟨hs, k, hk, hp, succ, hsub succ (by simp), har⟩
          · exact hspec2 x hx2

theorem dfs_ok_extend (g : DiGraph) :
    ∀ gas node p s s', dfs g gas node p s = .ok s' →
      ∃ new, s'.end_receivers = s.end_receivers ++ new ∧
        ∀ x ∈ new, IsSink g x.1 ∧
          ∃ k, k < gas ∧ x.2 = p * (4 / 5) ^ k ∧ ReachableIn g node x.1 k := by
  intro gas
  induction gas with
  | zero =>
    intro node p s s' h
    cases h
    exact ⟨[], by simp, by simp⟩
  | succ gas ih =>
    intro node p s s' h
    by_cases hv : node ∈ s.visited
    · rw [dfs_succ_visited hv] at h
      cases h
      exact ⟨[], by simp, by simp⟩
    · rcases hsucc : successors g node with e | succs
      · rw [dfs_succ_error hv hsucc] at h
        exact Except.noConfusion h
      · rw [dfs_succ_ok hv hsucc] at h
        by_cases hnil : succs = []
        · rw [if_pos hnil] at h
          cases h
          refine ⟨[(node, p)], rfl, ?_⟩
          intro x hx
          rcases List.mem_singleton.1 hx with rfl
          refine ⟨sink_of_successors_nil (hnil ▸ hsucc), 0, Nat.succ_pos gas, ?_,
            ReachableIn.refl node⟩
          simp
        · rw [if_neg hnil] at h
          obtain ⟨new, hnew, hspec⟩ :=
            foldl_dfsStep_ok_extend g gas node p ih succs
              ⟨s.end_receivers, node :: s.visited⟩ s'
              (hasEdge_of_mem_successors hsucc) h
          refine ⟨new, hnew, ?_⟩
          intro x hx
          obtain ⟨hs, k, hk, hp, a, hae, har⟩ := hspec x hx
          refine ⟨hs, k + 1, Nat.succ_lt_succ hk, ?_, ReachableIn.step hae har⟩
          rw [hp, pow_succ]
          ring

theorem foldl_dfsStep_total (g : DiGraph) (gas : ℕ) (node : String) (p : ℚ)
    (ih : ∀ (node' : String) (p' : ℚ) (s : DfsState), node' ∈ node_keys g →
      ∃ s', dfs g gas node' p' s = .ok s') :
    ∀ (succs : List String) (s0 : DfsState),
      (∀ a ∈ succs, a ∈ node_keys g) →
      ∃ s', succs.foldl (dfsStep g gas node p) (.ok s0) = .ok s' := by
  intro succs
  induction succs with
  | nil => intro s0 _; exact ⟨s0, rfl⟩
  | cons succ rest ihl =>
    intro s0 hsub
    rw [List.foldl_cons]
    have hstep : dfsStep g gas node p (.ok s0) succ =
        match get_edge_data g node succ with
        | some (some _) => dfs g gas succ (p * (4 / 5)) s0
        | _ => .ok s0 := rfl
    rcases hd : get_edge_data g node succ with _ | d
    · rw [hstep, hd]
      exact ihl s0 (fun a ha => hsub a (by simp [ha]))
    · rcases d with _ | d
      · rw [hstep, hd]
        exact ihl s0 (fun a ha => hsub a (by simp [ha]))
      · rw [hstep, hd]
        obtain ⟨s1, hs1⟩ := ih succ (p * (4 / 5)) s0 (hsub succ (by simp))
        rw [hs1]
        exact ihl s1 (fun a ha => hsub a (by simp [ha]))

theorem dfs_total_of_mem (g : DiGraph) (hwf : WfGraph g) :
    ∀ (gas : ℕ) (node : String) (p : ℚ) (s : DfsState),
      node ∈ node_keys g → ∃ s', dfs g gas node p s = .ok s' := by
  intro gas
  induction gas with
  | zero => intro node p s _; exact ⟨s, rfl⟩
  | succ gas ih =>
    intro node p s hmem
    by_cases hv : node ∈ s.visited
    · exact ⟨s, dfs_succ_visited hv⟩
    · have hsucc := successors_of_mem hmem
      by_cases hnil : (outEdges g node).map (fun e => e.2.1) = []
      · refine ⟨⟨s.end_receivers ++ [(node, p)], node :: s.visited⟩, ?_⟩
        rw [dfs_succ_ok hv hsucc, if_pos hnil]
      · obtain ⟨s', hs'⟩ :=
          foldl_dfsStep_total g gas node p ih
            ((outEdges g node).map (fun e => e.2.1))
            ⟨s.end_receivers, node :: s.visited⟩
            (mem_nodes_of_mem_successors hwf hsucc)
        refine ⟨s', ?_⟩
        rw [dfs_succ_ok hv hsucc, if_neg hnil]
        exact hs'

/-! ### `find_end_receivers`-level lemmas -/

theorem find_end_receivers_error_of_not_mem {g : DiGraph} {start : String}
    (m : ℕ) (h : start ∉ node_keys g) :
    find_end_receivers g start m =
      .error ("The node " ++ start ++ " is not in the digraph.") := by
  unfold find_end_receivers
  rw [dfs_succ_error (by simp) (successors_of_not_mem h)]

theorem find_end_receivers_total {g : DiGraph} (hwf : WfGraph g)
    {start : String} (m : ℕ) (h : start ∈ node_keys g) :
    ∃ l, find_end_receivers g start m = .ok l := by
  obtain ⟨s', hs'⟩ := dfs_total_of_mem g hwf (m + 1) start 1 ⟨[], []⟩ h
  refine ⟨(List.insertionSort (fun a b => b.2 ≤ a.2) s'.end_receivers).take 10, ?_⟩
  unfold find_end_receivers
  rw [hs']

theorem find_end_receivers_ok_spec {g : DiGraph} {start : String} {m : ℕ}
    {l : List (String × ℚ)} (hok : find_end_receivers g start m = .ok l) :
    ∀ x ∈ l, IsSink g x.1 ∧
      ∃ k, k ≤ m ∧ x.2 = (4 / 5) ^ k ∧ ReachableIn g start x.1 k := by
  unfold find_end_receivers at hok
  rcases hdfs : dfs g (m + 1) start 1 ⟨[], []⟩ with e | s
  · rw [hdfs] at hok
    exact Except.noConfusion hok
  · rw [hdfs] at hok
    injection hok with hok
    obtain ⟨new, hnew, hspec⟩ := dfs_ok_extend g (m + 1) start 1 ⟨[], []⟩ s hdfs
    intro x hx
    rw [← hok] at hx
    have hx1 : x ∈ List.insertionSort (fun a b => b.2 ≤ a.2) s.end_receivers :=
      (List.take_sublist 10 _).mem hx
    have hx2 : x ∈ s.end_receivers :=
      (List.perm_insertionSort (fun a b => b.2 ≤ a.2) s.end_receivers).mem_iff.1 hx1
    have hx3 : x ∈ new := by
      have : s.end_receivers = new := by simpa using hnew
      exact this ▸ hx2
    obtain ⟨hs, k, hk, hp, hr⟩ := hspec x hx3
    exact ⟨hs, k, Nat.lt_succ_iff.1 hk, by simpa using hp, hr⟩

theorem find_end_receivers_len_sorted {g : DiGraph} {start : String} {m : ℕ}
    {l : List (String × ℚ)} (hok : find_end_receivers g start m = .ok l) :
    l.length ≤ 10 ∧ l.Pairwise (fun a b => b.2 ≤ a.2) := by
  unfold find_end_receivers at hok
  rcases hdfs : dfs g (m + 1) start 1 ⟨[], []⟩ with e | s
  · rw [hdfs] at hok
    exact Except.noConfusion hok
  · rw [hdfs] at hok
    injection hok with hok
    subst hok
    constructor
    · exact List.length_take_le 10 _
    · haveI : IsTotal (String × ℚ) (fun a b => b.2 ≤ a.2) :=
        ⟨fun a b => (le_total b.2 a.2)⟩
      haveI : IsTrans (String × ℚ) (fun a b => b.2 ≤ a.2) :=
        ⟨fun _ _ _ h1 h2 => le_trans h2 h1⟩
      have hsorted :=
        List.sorted_insertionSort (fun (a b : String × ℚ) => b.2 ≤ a.2)
          s.end_receivers
      exact List.Pairwise.sublist (List.take_sublist 10 _) hsorted

theorem find_end_receivers_singleton {g : DiGraph} {start : String} (m : ℕ)
    (hmem : start ∈ node_keys g) (hout : outEdges g start = []) :
    find_end_receivers g start m = .ok [(start, 1)] := by
  have hsucc : successors g start = .ok [] := by
    rw [successors_of_mem hmem, hout]
    rfl
  unfold find_end_receivers
  rw [dfs_succ_ok (by simp) hsucc, if_pos rfl]
  simp [List.insertionSort, List.orderedInsert]

/-! ### Graph-construction lemmas -/

theorem find?_map_update {β : Type} (l : List (String × β)) (n : String)
    (b : β) (a : String) :
    (l.map (fun p => if p.1 == n then (n, b) else p)).find? (·.1 == a) =
      if a = n then
        (if l.any (·.1 == n) then some (n, b) else none)
      else l.find? (·.1 == a) := by
  induction l with
  | nil => by_cases h : a = n <;> simp [h]
  | cons p l ihl =>
    by_cases hpn : p.1 = n
    · have hmap : (p :: l).map (fun q => if q.1 == n then (n, b) else q) =
          (n, b) :: l.map (fun q => if q.1 == n then (n, b) else q) := by
        simp [List.map_cons, hpn]
      by_cases han : a = n
      · subst han
        rw [hmap, List.find?_cons]
        simp only [beq_self_eq_true]
        simp [List.any_cons, hpn]
      · have h1 : (n == a) = false := by
          simp only [beq_eq_false_iff_ne, ne_eq]
          exact fun hc => han hc.symm
        have h2 : (p.1 == a) = false := by rw [hpn]; exact h1
        rw [hmap, List.find?_cons]
        simp only [h1]
        rw [ihl, if_neg han, if_neg han, List.find?_cons]
        simp only [h2]
    · have hmap : (p :: l).map (fun q => if q.1 == n then (n, b) else q) =
          p :: l.map (fun q => if q.1 == n then (n, b) else q) := by
        simp [List.map_cons, hpn]
      by_cases han : a = n
      · subst han
        have h2 : (p.1 == a) = false := by
          simp only [beq_eq_false_iff_ne, ne_eq]; exact hpn
        rw [hmap, List.find?_cons]
        simp only [h2]
        rw [ihl]
        rw [List.any_cons, h2, Bool.false_or]
        simp
      · by_cases hpa : p.1 = a
        · have h3 : (p.1 == a) = true := by simp [hpa]
          rw [hmap, List.find?_cons]
          simp only [h3]
          rw [if_neg han, List.find?_cons]
          simp only [h3]
        · have h4 : (p.1 == a) = false := by simp [hpa]
          rw [hmap, List.find?_cons]
          simp only [h4]
          rw [ihl, if_neg han, if_neg han, List.find?_cons]
          simp only [h4]

theorem find?_map_update_edge {γ : Type} (l : List (String × String × γ))
    (u v : String) (c : γ) (x y : String) :
    (l.map (fun e => if e.1 == u && e.2.1 == v then (u, v, c) else e)).find?
        (fun e => e.1 == x && e.2.1 == y) =
      if x = u ∧ y = v then
        (if l.any (fun e => e.1 == u && e.2.1 == v) then some (u, v, c) else none)
      else l.find? (fun e => e.1 == x && e.2.1 == y) := by
  induction l with
  | nil => by_cases h : x = u ∧ y = v <;> simp [h]
  | cons p l ihl =>
    by_cases hpn : (p.1 == u && p.2.1 == v) = true
    · have hmap : (p :: l).map
          (fun e => if e.1 == u && e.2.1 == v then (u, v, c) else e) =
          (u, v, c) :: l.map
            (fun e => if e.1 == u && e.2.1 == v then (u, v, c) else e) := by
        simp only [List.map_cons, if_pos hpn]
      by_cases han : x = u ∧ y = v
      · obtain ⟨rfl, rfl⟩ := han
        rw [hmap, List.find?_cons]
        simp only [beq_self_eq_true, Bool.and_self]
        simp [List.any_cons, hpn]
      · have h1 : ((u, v, c).1 == x && (u, v, c).2.1 == y) = false := by
          simp only [Bool.and_eq_false_iff, beq_eq_false_iff_ne, ne_eq]
          rcases not_and_or.1 han with hx | hy
          · exact Or.inl (fun hc => hx hc.symm)
          · exact Or.inr (fun hc => hy hc.symm)
        have h2 : (p.1 == x && p.2.1 == y) = false := by
          have hp1 : p.1 = u := by
            have := hpn
            simp only [Bool.and_eq_true, beq_iff_eq] at this
            exact this.1
          have hp2 : p.2.1 = v := by
            have := hpn
            simp only [Bool.and_eq_true, beq_iff_eq] at this
            exact this.2
          rw [hp1, hp2]
          simpa using h1
        rw [hmap, List.find?_cons]
        simp only [h1]
        rw [ihl, if_neg han, if_neg han, List.find?_cons]
        simp only [h2]
    · have hmap : (p :: l).map
          (fun e => if e.1 == u && e.2.1 == v then (u, v, c) else e) =
          p :: l.map
            (fun e => if e.1 == u && e.2.1 == v then (u, v, c) else e) := by
        simp only [List.map_cons, if_neg hpn]
      by_cases han : x = u ∧ y = v
      · obtain ⟨rfl, rfl⟩ := han
        rw [hmap, List.find?_cons]
        have h2 : (p.1 == x && p.2.1 == y) = false := by
          simpa using hpn
        simp only [h2]
        rw [ihl]
        rw [List.any_cons]
        have h2' : (p.1 == x && p.2.1 == y) = false := by simpa using hpn
        rw [h2', Bool.false_or]
        simp
      · by_cases hpa : (p.1 == x && p.2.1 == y) = true
        · rw [hmap, List.find?_cons]
          simp only [hpa]
          rw [if_neg han, List.find?_cons]
          simp only [hpa]
        · have h4 : (p.1 == x && p.2.1 == y) = false := by
            simpa using hpa
          rw [hmap, List.find?_cons]
          simp only [h4]
          rw [ihl, if_neg han, if_neg han, List.find?_cons]
          simp only [h4]

theorem getNodeAttrs_add_node (g : DiGraph) (n : String) (d : NodeData)
    (a : String) :
    getNodeAttrs (add_node g n d) a =
      if a = n then some (some d) else getNodeAttrs g a := by
  unfold add_node getNodeAttrs
  by_cases hp : g.nodes.any (·.1 == n)
  · rw [if_pos hp]
    show ((g.nodes.map (fun p => if p.1 == n then (n, some d) else p)).find?
      (·.1 == a)).map (·.2) = _
    rw [find?_map_update]
    by_cases han : a = n
    · rw [if_pos han, if_pos hp, if_pos han]
      rfl
    · rw [if_neg han, if_neg han]
  · rw [if_neg hp]
    show ((g.nodes ++ [(n, some d)]).find? (·.1 == a)).map (·.2) = _
    rw [List.find?_append]
    by_cases han : a = n
    · subst han
      have hnone : g.nodes.find? (·.1 == a) = none := by
        rw [List.find?_eq_none]
        intro x hx hbeq
        exact hp (List.any_eq_true.2 ⟨x, hx, hbeq⟩)
      simp [hnone]
    · have hna : (n == a) = false :=
        beq_eq_false_iff_ne.2 (fun hc => han hc.symm)
      have hone : ([(n, some d)].find? (·.1 == a)) = none := by
        simp [List.find?_cons, hna]
      simp [hone, if_neg han]

theorem mem_node_keys_iff_attrs (g : DiGraph) (a : String) :
    a ∈ node_keys g ↔ (getNodeAttrs g a).isSome := by
  simp [node_keys, getNodeAttrs, List.find?_isSome, List.mem_map]

theorem mem_node_keys_add_node (g : DiGraph) (n : String) (d : NodeData)
    (a : String) :
    a ∈ node_keys (add_node g n d) ↔ a = n ∨ a ∈ node_keys g := by
  rw [mem_node_keys_iff_attrs, getNodeAttrs_add_node]
  by_cases han : a = n
  · simp [han]
  · rw [if_neg han, ← mem_node_keys_iff_attrs]
    simp [han]

theorem edges_add_node (g : DiGraph) (n : String) (d : NodeData) :
    (add_node g n d).edges = g.edges := by
  unfold add_node
  by_cases hp : g.nodes.any (·.1 == n) <;> simp [hp]

theorem nodes_add_edge_of_mem (g : DiGraph) {u v : String} (d : EdgeData)
    (hu : u ∈ node_keys g) (hv : v ∈ node_keys g) :
    (add_edge g u v d).nodes = g.nodes := by
  unfold add_edge
  have hens : ensureNode (ensureNode g.nodes u) v = g.nodes := by
    unfold ensureNode
    rw [if_pos ((nodes_any_iff g u).2 hu), if_pos ((nodes_any_iff g v).2 hv)]
  by_cases hp : g.edges.any (fun e => e.1 == u && e.2.1 == v) <;>
    simp [hp, hens]

theorem get_edge_data_add_node (g : DiGraph) (n : String) (d : NodeData)
    (x y : String) :
    get_edge_data (add_node g n d) x y = get_edge_data g x y := by
  unfold get_edge_data
  rw [edges_add_node]

theorem edge_keys_add_node (g : DiGraph) (n : String) (d : NodeData) :
    edge_keys (add_node g n d) = edge_keys g := by
  unfold edge_keys
  rw [edges_add_node]

theorem edge_keys_add_edge (g : DiGraph) (u v : String) (d : EdgeData) :
    edge_keys (add_edge g u v d) =
      if (u, v) ∈ edge_keys g then edge_keys g
      else edge_keys g ++ [(u, v)] := by
  unfold add_edge
  by_cases hp : g.edges.any (fun e => e.1 == u && e.2.1 == v)
  · rw [if_pos hp, if_pos ((edges_any_iff g u v).1 hp)]
    show (g.edges.map _).map _ = _
    rw [List.map_map]
    refine List.map_congr_left ?_
    intro e _
    by_cases he : (e.1 == u && e.2.1 == v) = true
    · have h1 : e.1 = u := by
        have := he
        simp only [Bool.and_eq_true, beq_iff_eq] at this
        exact this.1
      have h2 : e.2.1 = v := by
        have := he
        simp only [Bool.and_eq_true, beq_iff_eq] at this
        exact this.2
      simp [Function.comp, he, h1, h2]
    · simp [Function.comp, he]
  · rw [if_neg hp, if_neg (fun hc => hp ((edges_any_iff g u v).2 hc))]
    show (g.edges ++ [(u, v, some d)]).map _ = _
    rw [List.map_append]
    rfl

theorem get_edge_data_add_edge (g : DiGraph) (u v : String) (d : EdgeData)
    (x y : String) :
    get_edge_data (add_edge g u v d) x y =
      if x = u ∧ y = v then some (some d) else get_edge_data g x y := by
  unfold add_edge get_edge_data
  by_cases hp : g.edges.any (fun e => e.1 == u && e.2.1 == v)
  · rw [if_pos hp]
    show ((g.edges.map
      (fun e => if e.1 == u && e.2.1 == v then (u, v, some d) else e)).find?
        (fun e => e.1 == x && e.2.1 == y)).map (·.2.2) = _
    rw [find?_map_update_edge]
    by_cases hxy : x = u ∧ y = v
    · rw [if_pos hxy, if_pos hp, if_pos hxy]
      rfl
    · rw [if_neg hxy, if_neg hxy]
  · rw [if_neg hp]
    show ((g.edges ++ [(u, v, some d)]).find?
      (fun e => e.1 == x && e.2.1 == y)).map (·.2.2) = _
    rw [List.find?_append]
    by_cases hxy : x = u ∧ y = v
    · obtain ⟨rfl, rfl⟩ := hxy
      have hnone : g.edges.find? (fun e => e.1 == x && e.2.1 == y) = none := by
        rw [List.find?_eq_none]
        intro e he hbeq
        exact hp (List.any_eq_true.2 ⟨e, he, hbeq⟩)
      simp [hnone, List.find?_cons]
    · have hne : ((u, v, (some d : Option EdgeData)).1 == x &&
          (u, v, (some d : Option EdgeData)).2.1 == y) = false := by
        simp only [Bool.and_eq_false_iff, beq_eq_false_iff_ne, ne_eq]
        rcases not_and_or.1 hxy with hx | hy
        · exact Or.inl (fun hc => hx hc.symm)
        · exact Or.inr (fun hc => hy hc.symm)
      have hone : ([(u, v, (some d : Option EdgeData))].find?
          (fun e => e.1 == x && e.2.1 == y)) = none := by
        simp [List.find?_cons, hne]
      simp [hone, if_neg hxy]

theorem mem_edges_add_edge {g : DiGraph} {u v : String} {d : EdgeData}
    {e : String × String × Option EdgeData}
    (he : e ∈ (add_edge g u v d).edges) :
    e = (u, v, some d) ∨ e ∈ g.edges := by
  unfold add_edge at he
  by_cases hp : g.edges.any (fun e => e.1 == u && e.2.1 == v)
  · rw [if_pos hp] at he
    rcases List.mem_map.1 he with ⟨e0, he0, heq⟩
    by_cases h0 : (e0.1 == u && e0.2.1 == v) = true
    · left
      rw [← heq]
      simp [h0]
    · right
      rw [← heq]
      simpa [h0] using he0
  · rw [if_neg hp] at he
    rcases List.mem_append.1 he with h | h
    · exact Or.inr h
    · exact Or.inl (List.mem_singleton.1 h)

theorem mem_node_keys_add_edge (g : DiGraph) (u v : String) (d : EdgeData)
    (a : String) (ha : a ∈ node_keys g) :
    a ∈ node_keys (add_edge g u v d) := by
  unfold add_edge node_keys ensureNode
  have hens : ∀ (l : List (String × Option NodeData)) (n : String),
      a ∈ l.map (·.1) →
      a ∈ (if l.any (·.1 == n) then l else l ++ [(n, none)]).map (·.1) := by
    intro l n h
    by_cases hp : l.any (·.1 == n)
    · rwa [if_pos hp]
    · rw [if_neg hp, List.map_append]
      exact List.mem_append.2 (Or.inl h)
  by_cases hp : g.edges.any (fun e => e.1 == u && e.2.1 == v) <;>
    simp only [if_pos, if_neg, hp] <;>
    exact hens _ v (hens _ u ha)

theorem endpoint_mem_node_keys_add_edge (g : DiGraph) (u v : String)
    (d : EdgeData) :
    u ∈ node_keys (add_edge g u v d) ∧ v ∈ node_keys (add_edge g u v d) := by
  unfold add_edge node_keys
  have huv : ∀ (l : List (String × Option NodeData)) (n : String),
      n ∈ (ensureNode l n).map (·.1) := by
    intro l n
    unfold ensureNode
    by_cases hp : l.any (·.1 == n)
    · rw [if_pos hp]
      rcases List.any_eq_true.1 hp with ⟨p, hp', hbeq⟩
      exact List.mem_map.2 ⟨p, hp', beq_iff_eq.1 hbeq⟩
    · rw [if_neg hp, List.map_append]
      exact List.mem_append.2 (Or.inr (by simp))
  have hmono : ∀ (l : List (String × Option NodeData)) (n a : String),
      a ∈ l.map (·.1) → a ∈ (ensureNode l n).map (·.1) := by
    intro l n a h
    unfold ensureNode
    by_cases hp : l.any (·.1 == n)
    · rwa [if_pos hp]
    · rw [if_neg hp, List.map_append]
      exact List.mem_append.2 (Or.inl h)
  constructor
  · by_cases hp : g.edges.any (fun e => e.1 == u && e.2.1 == v) <;>
      simp only [if_pos, if_neg, hp] <;>
      exact hmono _ v u (huv g.nodes u)
  · by_cases hp : g.edges.any (fun e => e.1 == u && e.2.1 == v) <;>
      simp only [if_pos, if_neg, hp] <;>
      exact huv _ v

theorem wf_add_node {g : DiGraph} (hwf : WfGraph g) (n : String)
    (d : NodeData) : WfGraph (add_node g n d) := by
  intro e he
  rw [edges_add_node] at he
  obtain ⟨h1, h2⟩ := hwf e he
  exact ⟨(mem_node_keys_add_node g n d e.1).2 (Or.inr h1),
    (mem_node_keys_add_node g n d e.2.1).2 (Or.inr h2)⟩

theorem wf_add_edge {g : DiGraph} (hwf : WfGraph g) (u v : String)
    (d : EdgeData) : WfGraph (add_edge g u v d) := by
  intro e he
  rcases mem_edges_add_edge he with rfl | he'
  · exact endpoint_mem_node_keys_add_edge g u v d
  · obtain ⟨h1, h2⟩ := hwf e he'
    exact ⟨mem_node_keys_add_edge g u v d e.1 h1,
      mem_node_keys_add_edge g u v d e.2.1 h2⟩

theorem wf_processTx {g : DiGraph} (hwf : WfGraph g) (tx : Transaction) :
    WfGraph (processTx g tx) :=
  wf_add_edge (wf_add_node (wf_add_node hwf _ _) _ _) _ _ _

theorem wf_build (transactions : List Transaction) :
    WfGraph (build_transaction_tree transactions) := by
  unfold build_transaction_tree
  suffices h : ∀ (txs : List Transaction) (g : DiGraph), WfGraph g →
      WfGraph (txs.foldl processTx g) by
    exact h transactions ⟨[], []⟩ (fun e he => absurd he (List.not_mem_nil e))
  intro txs
  induction txs with
  | nil => intro g hg; exact hg
  | cons tx rest ih =>
    intro g hg
    exact ih (processTx g tx) (wf_processTx hg tx)

theorem getNodeAttrs_congr_nodes {g1 g2 : DiGraph} (h : g1.nodes = g2.nodes)
    (a : String) : getNodeAttrs g1 a = getNodeAttrs g2 a := by
  unfold getNodeAttrs
  rw [h]

theorem get_edge_data_congr_edges {g1 g2 : DiGraph} (h : g1.edges = g2.edges)
    (x y : String) : get_edge_data g1 x y = get_edge_data g2 x y := by
  unfold get_edge_data
  rw [h]

/-- One `build_transaction_tree` iteration overwrites the node attributes of
both endpoints with the current transaction's data and leaves every other
node's attributes unchanged. -/
theorem getNodeAttrs_processTx (G : DiGraph) (tx : Transaction) (a : String) :
    getNodeAttrs (processTx G tx) a =
      if (tx.from_address == a || tx.to_address == a) = true then
        some (some ⟨tx.currency, tx.timestamp, tx.timestamp⟩)
      else getNodeAttrs G a := by
  unfold processTx
  have hf : tx.from_address ∈ node_keys
      (add_node (add_node G tx.from_address ⟨tx.currency, tx.timestamp, tx.timestamp⟩)
        tx.to_address ⟨tx.currency, tx.timestamp, tx.timestamp⟩) :=
    (mem_node_keys_add_node _ _ _ _).2
      (Or.inr ((mem_node_keys_add_node _ _ _ _).2 (Or.inl rfl)))
  have ht : tx.to_address ∈ node_keys
      (add_node (add_node G tx.from_address ⟨tx.currency, tx.timestamp, tx.timestamp⟩)
        tx.to_address ⟨tx.currency, tx.timestamp, tx.timestamp⟩) :=
    (mem_node_keys_add_node _ _ _ _).2 (Or.inl rfl)
  rw [getNodeAttrs_congr_nodes (nodes_add_edge_of_mem _ _ hf ht) a,
    getNodeAttrs_add_node, getNodeAttrs_add_node]
  by_cases h1 : a = tx.to_address
  · simp [h1]
  · by_cases h2 : a = tx.from_address
    · have h1' : (tx.to_address == a) = false :=
        beq_eq_false_iff_ne.2 (Ne.symm h1)
      simp [h1, h2, h1']
    · have h1' : (tx.to_address == a) = false :=
        beq_eq_false_iff_ne.2 (Ne.symm h1)
      have h2' : (tx.from_address == a) = false :=
        beq_eq_false_iff_ne.2 (Ne.symm h2)
      simp [h1, h2, h1', h2']

theorem build_concat (txs : List Transaction) (tx : Transaction) :
    build_transaction_tree (txs ++ [tx]) =
      processTx (build_transaction_tree txs) tx := by
  unfold build_transaction_tree
  rw [List.foldl_append]
  rfl

/-- The node attributes in the built graph are those written by the LAST
transaction touching the address (last-write-wins), not a min/max over all
of them. -/
theorem getNodeAttrs_build (txs : List Transaction) (a : String) :
    getNodeAttrs (build_transaction_tree txs) a =
      ((txs.filter (fun tx => tx.from_address == a || tx.to_address == a)).getLast?).map
        (fun tx => some ⟨tx.currency, tx.timestamp, tx.timestamp⟩) := by
  induction txs using List.reverseRecOn with
  | nil => rfl
  | append_singleton txs tx ih =>
    rw [build_concat, getNodeAttrs_processTx, List.filter_append]
    by_cases hpred : (tx.from_address == a || tx.to_address == a) = true
    · rw [if_pos hpred]
      have hone : List.filter
          (fun tx => tx.from_address == a || tx.to_address == a) [tx] = [tx] := by
        simp [List.filter, hpred]
      rw [hone, List.getLast?_concat]
      rfl
    · rw [if_neg hpred, ih]
      have hnone : List.filter
          (fun tx => tx.from_address == a || tx.to_address == a) [tx] = [] := by
        simp [List.filter, Bool.of_not_eq_true hpred]
      rw [hnone, List.append_nil]

/-- One `build_transaction_tree` iteration overwrites the attributes of the
`(from, to)` edge with the current transaction's data and leaves every other
edge unchanged. -/
theorem get_edge_data_processTx (G : DiGraph) (tx : Transaction)
    (x y : String) :
    get_edge_data (processTx G tx) x y =
      if (tx.from_address == x && tx.to_address == y) = true then
        some (some ⟨tx.tx_hash, tx.amount, tx.timestamp, tx.currency⟩)
      else get_edge_data G x y := by
  unfold processTx
  rw [get_edge_data_add_edge, get_edge_data_add_node, get_edge_data_add_node]
  by_cases h : x = tx.from_address ∧ y = tx.to_address
  · rw [if_pos h, if_pos (by simp [h.1, h.2])]
  · rw [if_neg h, if_neg]
    intro hc
    simp only [Bool.and_eq_true, beq_iff_eq] at hc
    exact h ⟨hc.1.symm, hc.2.symm⟩

/-- The edge attributes in the built graph are those written by the LAST
transaction with that `(from, to)` pair (last-write-wins). -/
theorem get_edge_data_build (txs : List Transaction) (x y : String) :
    get_edge_data (build_transaction_tree txs) x y =
      ((txs.filter (fun tx => tx.from_address == x && tx.to_address == y)).getLast?).map
        (fun tx => some ⟨tx.tx_hash, tx.amount, tx.timestamp, tx.currency⟩) := by
  induction txs using List.reverseRecOn with
  | nil => rfl
  | append_singleton txs tx ih =>
    rw [build_concat, get_edge_data_processTx, List.filter_append]
    by_cases hpred : (tx.from_address == x && tx.to_address == y) = true
    · rw [if_pos hpred]
      have hone : List.filter
          (fun tx => tx.from_address == x && tx.to_address == y) [tx] = [tx] := by
        simp [List.filter, hpred]
      rw [hone, List.getLast?_concat]
      rfl
    · rw [if_neg hpred, ih]
      have hnone : List.filter
          (fun tx => tx.from_address == x && tx.to_address == y) [tx] = [] := by
        simp [List.filter, Bool.of_not_eq_true hpred]
      rw [hnone, List.append_nil]

theorem edge_keys_processTx (G : DiGraph) (tx : Transaction) :
    edge_keys (processTx G tx) =
      if (tx.from_address, tx.to_address) ∈ edge_keys G then edge_keys G
      else edge_keys G ++ [(tx.from_address, tx.to_address)] := by
  unfold processTx
  rw [edge_keys_add_edge, edge_keys_add_node, edge_keys_add_node]

theorem mem_edge_keys_processTx (G : DiGraph) (tx : Transaction)
    (p : String × String) :
    p ∈ edge_keys (processTx G tx) ↔
      p ∈ edge_keys G ∨ p = (tx.from_address, tx.to_address) := by
  rw [edge_keys_processTx]
  by_cases hmem : (tx.from_address, tx.to_address) ∈ edge_keys G
  · rw [if_pos hmem]
    constructor
    · exact Or.inl
    · rintro (h | rfl)
      · exact h
      · exact hmem
  · rw [if_neg hmem]
    simp

theorem nodup_edge_keys_processTx {G : DiGraph} (tx : Transaction)
    (h : (edge_keys G).Nodup) : (edge_keys (processTx G tx)).Nodup := by
  rw [edge_keys_processTx]
  by_cases hmem : (tx.from_address, tx.to_address) ∈ edge_keys G
  · rwa [if_pos hmem]
  · rw [if_neg hmem]
    simp [List.nodup_append, h, hmem]

theorem nodup_edge_keys_foldl (txs : List Transaction) :
    ∀ g : DiGraph, (edge_keys g).Nodup →
      (edge_keys (txs.foldl processTx g)).Nodup := by
  induction txs with
  | nil => intro g hg; exact hg
  | cons tx rest ih =>
    intro g hg
    exact ih (processTx g tx) (nodup_edge_keys_processTx tx hg)

theorem mem_edge_keys_foldl (txs : List Transaction) :
    ∀ (g : DiGraph) (p : String × String),
      p ∈ edge_keys (txs.foldl processTx g) ↔
        p ∈ edge_keys g ∨
          p ∈ txs.map (fun tx => (tx.from_address, tx.to_address)) := by
  induction txs with
  | nil => intro g p; simp
  | cons tx rest ih =>
    intro g p
    rw [List.foldl_cons, ih, mem_edge_keys_processTx]
    simp [or_assoc, or_comm, or_left_comm]

/-- The built graph has one edge per DISTINCT `(from, to)` pair of the
input: the edge count is the number of distinct ordered pairs, not the
number of transactions. -/
theorem edges_length_build (txs : List Transaction) :
    (build_transaction_tree txs).edges.length =
      ((txs.map (fun tx => (tx.from_address, tx.to_address))).dedup).length := by
  have hlen : (build_transaction_tree txs).edges.length =
      (edge_keys (build_transaction_tree txs)).length :=
    (List.length_map _ _).symm
  have hnodup : (edge_keys (build_transaction_tree txs)).Nodup :=
    nodup_edge_keys_foldl txs ⟨[], []⟩ (by simp [edge_keys])
  have hmem : ∀ p, p ∈ edge_keys (build_transaction_tree txs) ↔
      p ∈ txs.map (fun tx => (tx.from_address, tx.to_address)) := by
    intro p
    rw [build_transaction_tree, mem_edge_keys_foldl]
    simp [edge_keys]
  have hsets : (edge_keys (build_transaction_tree txs)).toFinset =
      (txs.map (fun tx => (tx.from_address, tx.to_address))).toFinset := by
    ext p
    simp only [List.mem_toFinset]
    exact hmem p
  rw [hlen, ← List.toFinset_card_of_nodup hnodup, hsets, List.card_toFinset]

/-! ### Classifier lemmas -/

theorem toNat_ofNat_shift (n : ℕ) (h65 : 65 ≤ n) (h90 : n ≤ 90) :
    (Char.ofNat (n + 32)).toNat = n + 32 := by
  have hv : (n + 32).isValidChar := Or.inl (by omega)
  rw [Char.ofNat, dif_pos hv]
  rfl

theorem char_toLower_toLower (c : Char) : c.toLower.toLower = c.toLower := by
  show (let n := c.toLower.toNat;
    if n ≥ 65 ∧ n ≤ 90 then Char.ofNat (n + 32) else c.toLower) = c.toLower
  by_cases h : c.toNat ≥ 65 ∧ c.toNat ≤ 90
  · have h1 : c.toLower = Char.ofNat (c.toNat + 32) := by
      show (let n := c.toNat;
        if n ≥ 65 ∧ n ≤ 90 then Char.ofNat (n + 32) else c) = _
      simp only [if_pos h]
    have h2 : c.toLower.toNat = c.toNat + 32 := by
      rw [h1]
      exact toNat_ofNat_shift c.toNat h.1 h.2
    simp only [h2]
    rw [if_neg (by omega)]
  · have h1 : c.toLower = c := by
      show (let n := c.toNat;
        if n ≥ 65 ∧ n ≤ 90 then Char.ofNat (n + 32) else c) = c
      simp only [if_neg h]
    rw [h1, if_neg (by rw [h1] at *; exact h)]

theorem lower_length (s : String) : (lower s).length = s.length := by
  cases s with
  | mk data =>
    show (data.map Char.toLower).length = data.length
    exact List.length_map data Char.toLower

theorem lower_lower (s : String) : lower (lower s) = lower s := by
  cases s with
  | mk data =>
    show (⟨(data.map Char.toLower).map Char.toLower⟩ : String) =
      ⟨data.map Char.toLower⟩
    rw [List.map_map]
    congr 1
    exact List.map_congr_left (fun c _ => char_toLower_toLower c)

/-- `detect_currency` only looks at the lowered address (plus its length,
which lowering preserves), so it is case-insensitive. -/
theorem detect_currency_lower (a : String) :
    detect_currency a = detect_currency (lower a) := by
  unfold detect_currency
  rw [lower_lower, lower_length]

/-- `detect_currency` always lands in the eight tags of the rule table. -/
theorem detect_currency_total (a : String) :
    detect_currency a ∈
      (["ETH", "BTC", "TRX", "ADA", "ATOM", "XRP", "XLM", "UNKNOWN"] :
        List String) := by
  simp only [detect_currency]
  split_ifs <;> simp

/-! ### Orchestrator lemmas -/

theorem analyze_fetched_ok {address cur : String} {txs : List Transaction}
    {call : FetchCall} {r : AnalysisResult} {calls : List FetchCall}
    (h : analyze_fetched address cur txs call = (.ok (.ok r), calls)) :
    r.address = address ∧ r.currency = cur ∧ r.transactions = txs ∧
      r.total_transactions = txs.length ∧
      r.incoming_transactions =
        (txs.filter (fun tx => tx.to_address == address)).length ∧
      r.outgoing_transactions =
        (txs.filter (fun tx => tx.from_address == address)).length ∧
      r.total_volume = (txs.map (·.amount)).sum := by
  simp only [analyze_fetched] at h
  by_cases hnil : txs = []
  · rw [if_pos hnil] at h
    injection h with h1 h2
    injection h1 with h1
    exact AnalyzeOutput.noConfusion h1
  · rw [if_neg hnil] at h
    rcases hfind : find_end_receivers (build_transaction_tree txs) address 5
      with e | ers
    · rw [hfind] at h
      injection h with h1 h2
      exact Except.noConfusion h1
    · rw [hfind] at h
      injection h with h1 h2
      injection h1 with h1
      injection h1 with h1
      cases h1
      exact ⟨rfl, rfl, rfl, rfl, rfl, rfl, rfl⟩

/-! ### The claims -/

def c1tx1 : Transaction := ⟨"h1", "a", "b", 10, 1, "ETH", 1, none, none⟩

def c1tx2 : Transaction := ⟨"h2", "a", "b", 20, 2, "ETH", 2, none, none⟩

/-- C1, counterexample: two transactions with the same `(from, to)` pair
yield ONE edge, not two — `networkx.DiGraph` is a simple digraph, so the
edge count is not the number of processed transactions. -/
theorem build_two_parallel_transactions_one_edge :
    (build_transaction_tree [c1tx1, c1tx2]).edges.length = 1 ∧
      ([c1tx1, c1tx2] : List Transaction).length = 2 ∧ (1 : ℕ) ≠ 2 := by
  decide

/-- C1, amended: the graph produced by `build_transaction_tree` is a simple
directed graph with one edge per DISTINCT `(from_address, to_address)` pair;
a repeated pair overwrites the existing edge's attributes with the later
transaction's data, so the edge count equals the number of distinct ordered
pairs among the processed transactions. -/
theorem build_edge_count_distinct_pairs_last_write (txs : List Transaction) :
    (build_transaction_tree txs).edges.length =
        ((txs.map (fun tx => (tx.from_address, tx.to_address))).dedup).length ∧
      ∀ u v : String,
        get_edge_data (build_transaction_tree txs) u v =
          ((txs.filter
            (fun tx => tx.from_address == u && tx.to_address == v)).getLast?).map
            (fun tx => some ⟨tx.tx_hash, tx.amount, tx.timestamp, tx.currency⟩) :=
  ⟨edges_length_build txs, fun u v => get_edge_data_build txs u v⟩

def c2tx : Transaction := ⟨"h1", "a", "b", 10, 1, "ETH", 1, none, none⟩

/-- C2, counterexample: for a start address absent from the graph,
`find_end_receivers` does NOT return an empty candidate list — it raises
networkx's `NetworkXError` from `graph.successors`. -/
theorem find_end_receivers_absent_start_error :
    find_end_receivers (build_transaction_tree [c2tx]) "z" 5 =
        .error "The node z is not in the digraph." ∧
      find_end_receivers (build_transaction_tree [c2tx]) "z" 5 ≠ .ok [] := by
  decide

/-- C2, amended: a start address absent from the graph makes
`find_end_receivers` raise `NetworkXError` (uncaught); a present start
address never raises, and when no sink is reachable from it within
`max_depth` hops the returned candidate list is empty. -/
theorem find_end_receivers_absent_or_disconnected (g : DiGraph)
    (start : String) (m : ℕ) (hwf : WfGraph g) :
    (start ∉ node_keys g →
      find_end_receivers g start m =
        .error ("The node " ++ start ++ " is not in the digraph.")) ∧
    (start ∈ node_keys g →
      ∃ l, find_end_receivers g start m = .ok l ∧
        ((∀ (n : String) (k : ℕ), k ≤ m → ReachableIn g start n k →
          ¬ IsSink g n) → l = [])) := by
  constructor
  · intro h
    exact find_end_receivers_error_of_not_mem m h
  · intro h
    obtain ⟨l, hl⟩ := find_end_receivers_total hwf m h
    refine ⟨l, hl, ?_⟩
    intro hns
    refine List.eq_nil_iff_forall_not_mem.2 ?_
    intro x hx
    obtain ⟨hs, k, hk, _, hr⟩ := find_end_receivers_ok_spec hl x hx
    exact hns x.1 k hk hr hs

/-- C2, witness for the amended statement at a one-edge graph. -/
theorem find_end_receivers_absent_or_disconnected_witness :
    (find_end_receivers (build_transaction_tree [c2tx]) "z" 5 =
        .error ("The node " ++ "z" ++ " is not in the digraph.")) ∧
    (∃ l, find_end_receivers (build_transaction_tree [c2tx]) "a" 5 = .ok l ∧
      ((∀ (n : String) (k : ℕ), k ≤ 5 →
        ReachableIn (build_transaction_tree [c2tx]) "a" n k →
        ¬ IsSink (build_transaction_tree [c2tx]) n) → l = [])) :=
  ⟨(find_end_receivers_absent_or_disconnected (build_transaction_tree [c2tx])
      "z" 5 (wf_build _)).1 (by decide),
    (find_end_receivers_absent_or_disconnected (build_transaction_tree [c2tx])
      "a" 5 (wf_build _)).2 (by decide)⟩

def c3tx1 : Transaction := ⟨"h1", "a", "b", 10, 1, "ETH", 1, none, none⟩

def c3tx2 : Transaction := ⟨"h2", "c", "a", 20, 1, "ETH", 2, none, none⟩

/-- C3, counterexample: address `a` is touched at timestamps 10 and 20, so
the claimed min/max policy predicts `first_seen = 10, last_seen = 20`; the
code instead stores `(20, 20)` — both fields are overwritten by the latest
sighting. -/
theorem node_first_seen_overwritten :
    getNodeAttrs (build_transaction_tree [c3tx1, c3tx2]) "a" =
        some (some ⟨"ETH", 20, 20⟩) ∧
      getNodeAttrs (build_transaction_tree [c3tx1, c3tx2]) "a" ≠
        some (some ⟨"ETH", 10, 20⟩) := by
  decide

/-- C3, amended: `G.add_node` overwrites the attribute dict, so after the
build a node's `currency`, `first_seen` and `last_seen` are all taken from
the LAST transaction (in processing order) touching that address; in
particular both timestamps equal that transaction's timestamp rather than
the min/max over all sightings. -/
theorem build_node_attrs_last_write_wins (txs : List Transaction)
    (a : String) :
    getNodeAttrs (build_transaction_tree txs) a =
      ((txs.filter
        (fun tx => tx.from_address == a || tx.to_address == a)).getLast?).map
        (fun tx => some ⟨tx.currency, tx.timestamp, tx.timestamp⟩) :=
  getNodeAttrs_build txs a

def c4row : EthRawTx :=
  ⟨"0xh", "0xa", "0xb", some 1, some (10 ^ 18), some 1, none, none⟩

/-- C4, counterexample: a transport-level failure (raised network exception,
or a 500 status that `raise_for_status` turns into an exception) makes the
adapters return the empty transaction list — the same value as "no data" —
instead of surfacing a typed transport error; the final conjunct shows the
same body parses to a non-empty list when the transport succeeds, so data
was silently dropped. -/
theorem adapter_transport_failure_empty_result :
    get_ethereum_transactions "APIKEY" (.failure "ConnectionError") 1000 = [] ∧
      get_ethereum_transactions "APIKEY"
        (.response 500 (.ok ⟨"1", "OK", [c4row]⟩)) 1000 = [] ∧
      get_bitcoin_transactions "1addr" (.failure "ConnectionError")
        (.response 200 (.ok [])) 1000 = [] ∧
      get_ethereum_transactions "APIKEY"
        (.response 200 (.ok ⟨"1", "OK", [c4row]⟩)) 1000 ≠ [] := by
  decide

/-- C4, amended: the adapters catch every transport-level failure (network
exception, an error status in 400–599 — the exact range where
`raise_for_status` raises — or an undecodable body) and return the empty
list; no typed transport error exists in their return type, and the
orchestrator then reports the same untyped `"No transactions found"`
condition it uses for a genuinely empty fetch. -/
theorem adapters_swallow_transport_failures :
    (∀ (key msg : String) (mx : ℕ),
      get_ethereum_transactions key (.failure msg) mx = []) ∧
    (∀ (key : String) (code : ℕ) (body : Except String EtherscanResponse)
      (mx : ℕ), 400 ≤ code → code < 600 →
      get_ethereum_transactions key (.response code body) mx = []) ∧
    (∀ (key msg : String) (mx : ℕ),
      get_ethereum_transactions key (.response 200 (.error msg)) mx = []) ∧
    (∀ (addr msg : String) (r2 : HttpResult (List BtcRawTx)) (mx : ℕ),
      get_bitcoin_transactions addr (.failure msg) r2 mx = []) ∧
    (∀ (addr : String) (code : ℕ) (body : Except String BtcAddressData)
      (r2 : HttpResult (List BtcRawTx)) (mx : ℕ), 400 ≤ code → code < 600 →
      get_bitcoin_transactions addr (.response code body) r2 mx = []) ∧
    (∀ (addr : String) (ad : BtcAddressData) (msg : String) (mx : ℕ),
      get_bitcoin_transactions addr (.response 200 (.ok ad))
        (.failure msg) mx = []) ∧
    (∀ (fe fb ft : String → List Transaction) (addr : String), fe addr = [] →
      analyze_transaction_flow fe fb ft addr (some "ETH") =
        (.ok (.error "No transactions found"), [FetchCall.eth addr])) := by
  refine ⟨?_, ?_, ?_, ?_, ?_, ?_, ?_⟩
  · intro key msg mx
    unfold get_ethereum_transactions
    by_cases h : key = "" <;> simp [h]
  · intro key code body mx hc1 hc2
    unfold get_ethereum_transactions
    by_cases h : key = "" <;> simp [h, hc1, hc2]
  · intro key msg mx
    unfold get_ethereum_transactions
    by_cases h : key = "" <;> simp [h]
  · intro addr msg r2 mx
    unfold get_bitcoin_transactions
    simp
  · intro addr code body r2 mx hc1 hc2
    unfold get_bitcoin_transactions
    simp [hc1, hc2]
  · intro addr ad msg mx
    unfold get_bitcoin_transactions
    by_cases h : ad.tx_count = 0 <;> simp [h]
  · intro fe fb ft addr hfe
    simp [analyze_transaction_flow, resolve_currency, analyze_fetched, hfe]

/-- C4, witness for the amended statement at concrete failures. -/
theorem adapters_swallow_transport_failures_witness :
    get_ethereum_transactions "k" (.failure "boom") 7 = [] ∧
      get_ethereum_transactions "k" (.response 503 (.error "bad json")) 7 = [] ∧
      get_bitcoin_transactions "1a" (.response 404 (.error "x"))
        (.failure "y") 7 = [] ∧
      analyze_transaction_flow (fun _ => []) (fun _ => []) (fun _ => [])
        "0xabc" (some "ETH") =
        (.ok (.error "No transactions found"), [FetchCall.eth "0xabc"]) := by
  obtain ⟨p1, p2, p3, p4, p5, p6, p7⟩ := adapters_swallow_transport_failures
  exact ⟨p1 "k" "boom" 7,
    p2 "k" 503 (.error "bad json") 7 (by norm_num) (by norm_num),
    p5 "1a" 404 (.error "x") (.failure "y") 7 (by norm_num) (by norm_num),
    p7 (fun _ => []) (fun _ => []) (fun _ => []) "0xabc" rfl⟩

def c5tx : Transaction := ⟨"h1", "a", "b", 10, 1, "ETH", 1, none, none⟩

/-- C5: every candidate recorded by `find_end_receivers` is a sink (a graph
node with no outgoing edges) reached in some number `k` of hops from the
start, with reported probability exactly `0.8^k` (`0.8 = 4/5` as an exact
rational); and when the start node itself has no outgoing edges the result
is exactly `[(start, 1.0)]`. -/
theorem rank_candidates_are_sinks_with_decay (g : DiGraph) (start : String)
    (m : ℕ) :
    (∀ l, find_end_receivers g start m = .ok l →
      ∀ x ∈ l, IsSink g x.1 ∧
        ∃ k, x.2 = (4 / 5) ^ k ∧ ReachableIn g start x.1 k) ∧
    (start ∈ node_keys g → outEdges g start = [] →
      find_end_receivers g start m = .ok [(start, 1)]) := by
  constructor
  · intro l hok x hx
    obtain ⟨hs, k, _, hp, hr⟩ := find_end_receivers_ok_spec hok x hx
    exact ⟨hs, k, hp, hr⟩
  · intro hmem hout
    exact find_end_receivers_singleton m hmem hout

/-- C5, witness: in the one-edge graph `a → b`, starting at the sink `b`
returns exactly `[(b, 1.0)]`, and that candidate is a sink reached in `k`
hops with probability `0.8^k`. -/
theorem rank_candidates_are_sinks_with_decay_witness :
    find_end_receivers (build_transaction_tree [c5tx]) "b" 5 =
        .ok [("b", 1)] ∧
      (IsSink (build_transaction_tree [c5tx]) "b" ∧
        ∃ k, (1 : ℚ) = (4 / 5) ^ k ∧
          ReachableIn (build_transaction_tree [c5tx]) "b" "b" k) := by
  have h2 := (rank_candidates_are_sinks_with_decay
    (build_transaction_tree [c5tx]) "b" 5).2 (by decide) (by decide)
  have h1 := (rank_candidates_are_sinks_with_decay
    (build_transaction_tree [c5tx]) "b" 5).1 [("b", 1)] h2 ("b", 1) (by simp)
  exact ⟨h2, h1⟩

def c6tx : Transaction := ⟨"h1", "a", "b", 10, 1, "ETH", 1, none, none⟩

/-- C6: whenever `find_end_receivers` returns a candidate list, it has at
most 10 entries and its probabilities are non-increasing in output order
(the result is the stable descending sort truncated to the first 10). -/
theorem rank_at_most_ten_sorted_desc (g : DiGraph) (start : String) (m : ℕ)
    (l : List (String × ℚ)) (hok : find_end_receivers g start m = .ok l) :
    l.length ≤ 10 ∧ l.Pairwise (fun a b => b.2 ≤ a.2) :=
  find_end_receivers_len_sorted hok

unseal Rat.mul Rat.add Rat.inv Rat.sub in
/-- C6, witness at the one-edge graph `a → b`. -/
theorem rank_at_most_ten_sorted_desc_witness :
    ([(("b" : String), (4 / 5 : ℚ))].length ≤ 10 ∧
      List.Pairwise (fun a b => b.2 ≤ a.2) [(("b" : String), (4 / 5 : ℚ))]) :=
  rank_at_most_ten_sorted_desc (build_transaction_tree [c6tx]) "a" 5
    [("b", 4 / 5)] (by decide)

def c7fetch : String → List Transaction :=
  fun _ => [⟨"h1", "0xabc", "0xdef", 10, 2, "ETH", 1, none, none⟩]

unseal Rat.mul Rat.add Rat.inv Rat.sub in
/-- C7, counterexample: the empty string is a currency tag outside
`{ETH, BTC, TRX}`, yet `analyze_transaction_flow` does not fail fast on it:
`if not currency` treats `""` as "not supplied", auto-detects `ETH` from the
address and performs an adapter fetch. -/
theorem analyze_empty_tag_triggers_fetch :
    (("" : String) ≠ "ETH" ∧ ("" : String) ≠ "BTC" ∧ ("" : String) ≠ "TRX") ∧
      (analyze_transaction_flow c7fetch c7fetch c7fetch "0xabc"
        (some "")).2 = [FetchCall.eth "0xabc"] ∧
      (analyze_transaction_flow c7fetch c7fetch c7fetch "0xabc"
        (some "")).1 ≠ .ok (.error ("Unsupported currency: " ++ "")) := by
  decide

/-- C7, amended: for every NON-EMPTY currency tag outside `{ETH, BTC, TRX}`,
`analyze_transaction_flow` returns the `"Unsupported currency"` error
immediately and performs no adapter call; the empty tag is falsy in Python
and is treated as "currency not supplied", triggering auto-detection
instead. -/
theorem analyze_unsupported_currency_fails_fast
    (fe fb ft : String → List Transaction) (address c : String)
    (hne : c ≠ "") (h1 : c ≠ "ETH") (h2 : c ≠ "BTC") (h3 : c ≠ "TRX") :
    analyze_transaction_flow fe fb ft address (some c) =
      (.ok (.error ("Unsupported currency: " ++ c)), []) := by
  have hres : resolve_currency address (some c) = c := by
    simp only [resolve_currency]
    rw [if_neg hne]
  simp only [analyze_transaction_flow, hres]
  rw [if_neg h1, if_neg h2, if_neg h3]

/-- C7, witness for the amended statement at the tag `ADA`. -/
theorem analyze_unsupported_currency_fails_fast_witness :
    analyze_transaction_flow c7fetch c7fetch c7fetch "X" (some "ADA") =
      (.ok (.error ("Unsupported currency: " ++ "ADA")), []) :=
  analyze_unsupported_currency_fails_fast c7fetch c7fetch c7fetch "X" "ADA"
    (by decide) (by decide) (by decide) (by decide)

def c8txs : List Transaction :=
  [⟨"h1", "X", "Y", 1, 1, "ETH", 1, none, none⟩,
    ⟨"h2", "Z", "X", 2, 2, "ETH", 2, none, none⟩,
    ⟨"h3", "X", "W", 3, 3, "ETH", 3, none, none⟩]

def c8fetch : String → List Transaction := fun _ => c8txs

def c8result : AnalysisResult :=
  ⟨"X", "ETH", 3, 1, 2, 6, [("Y", 4 / 5), ("W", 4 / 5)],
    build_transaction_tree c8txs, c8txs⟩

/-- C8: whenever `analyze_transaction_flow` returns its success dict, the
reported `incoming_transactions` is the count of fetched transactions whose
`to_address` equals the queried address, `outgoing_transactions` the count
whose `from_address` equals it, and `total_volume` the sum of ALL fetched
transaction amounts regardless of direction; `transactions` is exactly the
list the selected adapter returned. -/
theorem analyze_aggregate_statistics
    (fe fb ft : String → List Transaction) (address : String)
    (currency : Option String) (r : AnalysisResult) (calls : List FetchCall)
    (h : analyze_transaction_flow fe fb ft address currency =
      (.ok (.ok r), calls)) :
    r.incoming_transactions =
        (r.transactions.filter (fun tx => tx.to_address == address)).length ∧
      r.outgoing_transactions =
        (r.transactions.filter (fun tx => tx.from_address == address)).length ∧
      r.total_volume = (r.transactions.map (·.amount)).sum ∧
      r.total_transactions = r.transactions.length ∧
      (r.currency = "ETH" → r.transactions = fe address) ∧
      (r.currency = "BTC" → r.transactions = fb address) ∧
      (r.currency = "TRX" → r.transactions = ft address) := by
  simp only [analyze_transaction_flow] at h
  by_cases hE : resolve_currency address currency = "ETH"
  · rw [if_pos hE] at h
    obtain ⟨ha, hc, htx, hn, hin, hout, hv⟩ := analyze_fetched_ok h
    rw [← htx] at hin hout hv hn
    refine ⟨hin, hout, hv, hn, fun _ => htx, ?_, ?_⟩
    · intro hbad
      rw [hc, hE] at hbad
      exact absurd hbad (by decide)
    · intro hbad
      rw [hc, hE] at hbad
      exact absurd hbad (by decide)
  · rw [if_neg hE] at h
    by_cases hB : resolve_currency address currency = "BTC"
    · rw [if_pos hB] at h
      obtain ⟨ha, hc, htx, hn, hin, hout, hv⟩ := analyze_fetched_ok h
      rw [← htx] at hin hout hv hn
      refine ⟨hin, hout, hv, hn, ?_, fun _ => htx, ?_⟩
      · intro hbad
        rw [hc, hB] at hbad
        exact absurd hbad (by decide)
      · intro hbad
        rw [hc, hB] at hbad
        exact absurd hbad (by decide)
    · rw [if_neg hB] at h
      by_cases hT : resolve_currency address currency = "TRX"
      · rw [if_pos hT] at h
        obtain ⟨ha, hc, htx, hn, hin, hout, hv⟩ := analyze_fetched_ok h
        rw [← htx] at hin hout hv hn
        refine ⟨hin, hout, hv, hn, ?_, ?_, fun _ => htx⟩
        · intro hbad
          rw [hc, hT] at hbad
          exact absurd hbad (by decide)
        · intro hbad
          rw [hc, hT] at hbad
          exact absurd hbad (by decide)
      · rw [if_neg hT] at h
        injection h with h1 h2
        injection h1 with h1
        exact AnalyzeOutput.noConfusion h1

unseal Rat.mul Rat.add Rat.inv Rat.sub in
/-- C8, witness: the spec's own scenario `[X→Y, Z→X, X→W]` gives
incoming = 1, outgoing = 2, total volume = the sum of all three amounts. -/
theorem analyze_aggregate_statistics_witness :
    c8result.incoming_transactions =
        (c8result.transactions.filter (fun tx => tx.to_address == "X")).length ∧
      c8result.outgoing_transactions =
        (c8result.transactions.filter
          (fun tx => tx.from_address == "X")).length ∧
      c8result.total_volume = (c8result.transactions.map (·.amount)).sum := by
  have h := analyze_aggregate_statistics c8fetch c8fetch c8fetch "X"
    (some "ETH") c8result [FetchCall.eth "X"] (by decide)
  exact ⟨h.1, h.2.1, h.2.2.1⟩

/-- C9: `detect_currency` is a deterministic total function: it is
case-insensitive (it only inspects the lowered address, plus the length,
which lowering preserves), always returns one of the eight tags of the
fixed-order first-match rule table, and classifies the three reference
inputs as `ETH`, `BTC` and `UNKNOWN` respectively. -/
theorem detect_currency_contract :
    (∀ a : String, detect_currency a = detect_currency (lower a)) ∧
      (∀ a : String, detect_currency a ∈
        (["ETH", "BTC", "TRX", "ADA", "ATOM", "XRP", "XLM", "UNKNOWN"] :
          List String)) ∧
      detect_currency "0xabc" = "ETH" ∧
      detect_currency "1A1zP1eP5QGefi2DMPTfTL5SLmv7DivfNa" = "BTC" ∧
      detect_currency "unknownformat" = "UNKNOWN" :=
  ⟨detect_currency_lower, detect_currency_total, by decide, by decide,
    by decide⟩

def chain5 : DiGraph :=
  build_transaction_tree
    [⟨"t1", "n0", "n1", 1, 1, "ETH", 1, none, none⟩,
      ⟨"t2", "n1", "n2", 2, 1, "ETH", 2, none, none⟩,
      ⟨"t3", "n2", "n3", 3, 1, "ETH", 3, none, none⟩,
      ⟨"t4", "n3", "n4", 4, 1, "ETH", 4, none, none⟩,
      ⟨"t5", "n4", "n5", 5, 1, "ETH", 5, none, none⟩]

def chain6 : DiGraph :=
  build_transaction_tree
    [⟨"t1", "n0", "n1", 1, 1, "ETH", 1, none, none⟩,
      ⟨"t2", "n1", "n2", 2, 1, "ETH", 2, none, none⟩,
      ⟨"t3", "n2", "n3", 3, 1, "ETH", 3, none, none⟩,
      ⟨"t4", "n3", "n4", 4, 1, "ETH", 4, none, none⟩,
      ⟨"t5", "n4", "n5", 5, 1, "ETH", 5, none, none⟩,
      ⟨"t6", "n5", "n6", 6, 1, "ETH", 6, none, none⟩]

unseal Rat.mul Rat.add Rat.inv Rat.sub in
/-- C10: the depth cutoff is strict (`depth > max_depth`): every recorded
candidate lies within `max_depth` hops of the start; a sink at exactly
`max_depth = 5` hops IS recorded (the 5-edge chain yields
`[(n5, 0.8^5)]`), while a sink first reachable only in 6 hops is NOT (the
6-edge chain yields `[]`). -/
theorem rank_depth_cutoff_boundary :
    (∀ (g : DiGraph) (start : String) (m : ℕ) (l : List (String × ℚ)),
      find_end_receivers g start m = .ok l →
      ∀ x ∈ l, ∃ k, k ≤ m ∧ x.2 = (4 / 5) ^ k ∧
        ReachableIn g start x.1 k) ∧
    find_end_receivers chain5 "n0" 5 = .ok [("n5", (4 / 5) ^ 5)] ∧
    find_end_receivers chain6 "n0" 5 = .ok [] := by
  refine ⟨?_, by decide, by decide⟩
  intro g start m l hok x hx
  obtain ⟨_, k, hk, hp, hr⟩ := find_end_receivers_ok_spec hok x hx
  exact ⟨k, hk, hp, hr⟩

/-- C10, witness: the recorded chain candidate indeed lies within 5 hops
with the matching decayed probability. -/
theorem rank_depth_cutoff_boundary_witness :
    ∃ k, k ≤ 5 ∧ ((4 / 5 : ℚ) ^ 5 = (4 / 5) ^ k ∧
      ReachableIn chain5 "n0" "n5" k) := by
  obtain ⟨k, hk, hp, hr⟩ := rank_depth_cutoff_boundary.1 chain5 "n0" 5 _
    rank_depth_cutoff_boundary.2.1 ("n5", (4 / 5) ^ 5) (by simp)
  exact ⟨k, hk, hp, hr⟩

end HackNode
